import Mathlib

/-
Verification of the speech-analyzer audio capture pipeline.

This file gives a shallow embedding of the audio pipeline of the repository
(the pure utilities `calculateRMS`, `downsample`, `floatToInt16` from
src/desktop/src/components/Session.tsx (audioUtils section), the frame
assembly logic of `MicCapture.processAudioFrame`, the teardown in
`MicCapture.stop` / `MicCapture.cleanup`, and the loopback capture of
src/unnamed/part_000), and proves or refutes the specification claims
about it.

Modelling choices:
- A JavaScript number is modelled as `Option ℚ`: `some q` is a finite
  value with exact rational arithmetic, `none` is a non-finite value
  (NaN or ±Infinity).  The functions under study validate finiteness
  with `isFinite` before doing arithmetic, so arithmetic only ever
  happens on finite values in the model.
- `Math.round x` is `⌊x + 1/2⌋` (JavaScript rounds half toward +∞).
- Typed arrays (`Float32Array`, `Int16Array`) are modelled as lists;
  value-level aliasing questions are handled by a separate small heap
  model near the end of the file.
-/

namespace SpeechAnalyzer

/-- A JavaScript number: a finite rational, or a non-finite value
(NaN/Infinity), which `isFinite` rejects. -/
abbrev JsNum := Option ℚ

/-- Error taxonomy of the pipeline's pure functions: they throw on
malformed numeric input (spec section 7 calls this `InvalidInput`). -/
inductive Err where
  | InvalidInput
deriving DecidableEq, Repr

/-- JavaScript `Math.round`: round half toward positive infinity,
i.e. `⌊x + 1/2⌋`. -/
def jround (q : ℚ) : ℤ := ⌊q + 1/2⌋

/-! ### calculateRMS (renderer variant, audioUtils)

```js
export function calculateRMS(buffer) {
  if (!buffer || buffer.length === 0) throw InvalidInput
  let sum = 0;
  for (i) { const value = buffer[i];
            if (!isFinite(value)) throw InvalidInput
            sum += value * value; }
  const mean = sum / buffer.length;
  return Math.sqrt(mean);
}
```
The model returns the mean of the squares (`mean` above), a rational;
the function's result is its real square root, written `Real.sqrt` in
the theorems.  (The final `isFinite(rms)` guard of the source cannot
fire in exact arithmetic, since `mean` is a finite rational.) -/

/-- Sum of squares of a buffer, failing on the first non-finite entry,
as the validation loop of `calculateRMS` does. -/
def sumSquares : List JsNum → Except Err ℚ
  | [] => .ok 0
  | none :: _ => .error .InvalidInput
  | some q :: xs =>
    match sumSquares xs with
    | .error e => .error e
    | .ok s => .ok (q * q + s)

/-- Embedding of `calculateRMS` up to the final square root: validates
the buffer and returns `mean(sample_i^2)`; the source returns
`Math.sqrt` of this value. -/
def calculateRMSSq (buffer : List JsNum) : Except Err ℚ :=
  if buffer.length = 0 then .error .InvalidInput
  else
    match sumSquares buffer with
    | .error e => .error e
    | .ok s => .ok (s / buffer.length)

/-! ### downsample (audioUtils)

```js
export function downsample(sourceBuffer, sourceSampleRate, targetSampleRate) {
  if (!sourceBuffer || sourceBuffer.length === 0) throw InvalidInput
  if (!isFinite(sourceSampleRate) || sourceSampleRate <= 0) throw InvalidInput
  if (!isFinite(targetSampleRate) || targetSampleRate <= 0) throw InvalidInput
  if (sourceSampleRate === targetSampleRate) return sourceBuffer;
  const sampleRateRatio = sourceSampleRate / targetSampleRate;
  const newLength = Math.round(sourceBuffer.length / sampleRateRatio);
  if (newLength <= 0) throw InvalidInput
  // for each output index: average the source window
  // [round(i*ratio), min(round((i+1)*ratio), length)),
  // validating each visited sample; empty window gives 0.
}
```
The imperative loop carries `offsetSource`, which at output index `i`
always equals `round(i * ratio)` (it is initialised to 0 and assigned
`round((i+1) * ratio)` at the end of iteration `i`), so the loop is
equivalently a map over output indices; the model uses that form. -/

/-- Average of the source window `[lo, hi)` of `downsample`, clipped to
the buffer length, validating every visited sample; an empty window
yields 0 (the `count === 0` branch of the source). -/
def windowAvg (src : List JsNum) (lo hi : ℕ) : Except Err ℚ :=
  let w := (src.drop lo).take (hi - lo)
  match sumSquaresGuard w with
  | .error e => .error e
  | .ok vals =>
    if vals.length = 0 then .ok 0 else .ok (vals.sum / vals.length)
where
  /-- Validates each sample of a window, returning the finite values. -/
  sumSquaresGuard : List JsNum → Except Err (List ℚ)
  | [] => .ok []
  | none :: _ => .error .InvalidInput
  | some q :: xs =>
    match sumSquaresGuard xs with
    | .error e => .error e
    | .ok vs => .ok (q :: vs)

/-- The `while (offsetResult < result.length)` loop of `downsample`:
`count` is the number of output samples still to produce and
`offsetResult` the current output index; each step averages the
source window `[round(offsetResult * ratio),
round((offsetResult + 1) * ratio))`. -/
def downsampleLoop (src : List JsNum) (ratio : ℚ) :
    (count : ℕ) → (offsetResult : ℕ) → Except Err (List ℚ)
  | 0, _ => .ok []
  | count + 1, offsetResult =>
    match windowAvg src (jround (offsetResult * ratio)).toNat
        (jround ((offsetResult + 1) * ratio)).toNat with
    | .error e => .error e
    | .ok v =>
      match downsampleLoop src ratio count (offsetResult + 1) with
      | .error e => .error e
      | .ok vs => .ok (v :: vs)

/-- Embedding of `downsample`: box-filter downsampling with the
source's validation order (empty buffer, then source rate, then target
rate, then the equal-rate identity shortcut, then the output length
guard, then the averaging loop). -/
def downsample (sourceBuffer : List JsNum) (sourceSampleRate targetSampleRate : JsNum) :
    Except Err (List JsNum) :=
  if sourceBuffer.length = 0 then .error .InvalidInput
  else
    match sourceSampleRate, targetSampleRate with
    | none, _ => .error .InvalidInput
    | some s, _ =>
      if s ≤ 0 then .error .InvalidInput
      else
        match targetSampleRate with
        | none => .error .InvalidInput
        | some t =>
          if t ≤ 0 then .error .InvalidInput
          else if s = t then .ok sourceBuffer
          else
            let ratio := s / t
            let newLength := jround (sourceBuffer.length / ratio)
            if newLength ≤ 0 then .error .InvalidInput
            else
              match downsampleLoop sourceBuffer ratio newLength.toNat 0 with
              | .error e => .error e
              | .ok vals => .ok (vals.map some)

/-! ### floatToInt16 (audioUtils)

```js
export function floatToInt16(floatBuffer) {
  if (!floatBuffer || floatBuffer.length === 0) throw InvalidInput
  for (i) { const value = floatBuffer[i];
            if (!isFinite(value)) throw InvalidInput
            const s = Math.max(-1, Math.min(1, value));
            const intValue = Math.round(s * 32767);
            if (intValue < -32768 || intValue > 32767) throw InvalidInput
            int16Buffer[i] = intValue; }
}
``` -/

/-- Embedding of the per-sample body of `floatToInt16`: validate,
clamp to `[-1, 1]`, scale by 32767 and round, then range-check. -/
def floatToInt16One (x : JsNum) : Except Err ℤ :=
  match x with
  | none => .error .InvalidInput
  | some q =>
    let s := max (-1) (min 1 q)
    let intValue := jround (s * 32767)
    if intValue < -32768 ∨ 32767 < intValue then .error .InvalidInput
    else .ok intValue

/-- Conversion loop of `floatToInt16`, stopping at the first invalid
sample. -/
def floatToInt16Go : List JsNum → Except Err (List ℤ)
  | [] => .ok []
  | x :: xs =>
    match floatToInt16One x with
    | .error e => .error e
    | .ok v =>
      match floatToInt16Go xs with
      | .error e => .error e
      | .ok vs => .ok (v :: vs)

/-- Embedding of `floatToInt16`. -/
def floatToInt16 (floatBuffer : List JsNum) : Except Err (List ℤ) :=
  if floatBuffer.length = 0 then .error .InvalidInput
  else floatToInt16Go floatBuffer

/-- Modelled from the spec: `int16ToFloat` is the inverse scale-down
(`value / 32768`) and is total.  The function itself is not under
src/ (the repository applies the same normalisation inline in the
loopback `calculateRMS`, src/unnamed/part_000 line 30:
`const normalized = value / 32768;`). -/
def int16ToFloat (v : ℤ) : ℚ := (v : ℚ) / 32768

/-! ### Frame assembly (MicCapture.processAudioFrame, Session.tsx)

```js
this.sampleBuffer.push(new Float32Array(dataArray));
const totalSamples = this.sampleBuffer.reduce((sum, buf) => sum + buf.length, 0);
if (totalSamples >= this.samplesPerFrame) {
  const concatenated = ... // concatenation of all buffered blocks
  const frameSamples = concatenated.slice(0, this.samplesPerFrame);
  const remaining = concatenated.slice(this.samplesPerFrame);
  this.sampleBuffer = remaining.length > 0 ? [remaining] : [];
  // frameSamples is then downsampled, encoded and emitted
}
```
Note the source uses `if`, not `while`: one push emits at most one
frame, however many samples arrive.  The same structure appears in the
loopback renderer script (src/unnamed/part_000, `processFrame`). -/

/-- One push into the frame assembler: appends the incoming block to
the buffered blocks and, if at least `samplesPerFrame` samples are
buffered, slices off exactly one frame (the source's `if`, not a
`while`).  Returns the new buffer and the frame sliced off, if any. -/
def micAssemblerPush (samplesPerFrame : ℕ) (sampleBuffer : List (List JsNum))
    (block : List JsNum) : List (List JsNum) × Option (List JsNum) :=
  let buf := sampleBuffer ++ [block]
  let totalSamples := (buf.map List.length).sum
  if samplesPerFrame ≤ totalSamples then
    let concatenated := buf.flatten
    let frameSamples := concatenated.take samplesPerFrame
    let remaining := concatenated.drop samplesPerFrame
    ((if remaining.length = 0 then [] else [remaining]), some frameSamples)
  else (buf, none)

/-- Folding `micAssemblerPush` over a sequence of pushed blocks,
collecting the emitted frames in order. -/
def micAssemblerRun (samplesPerFrame : ℕ) (sampleBuffer : List (List JsNum)) :
    List (List JsNum) → List (List JsNum) × List (List JsNum)
  | [] => (sampleBuffer, [])
  | block :: blocks =>
    match micAssemblerPush samplesPerFrame sampleBuffer block with
    | (buf, frame) =>
      match micAssemblerRun samplesPerFrame buf blocks with
      | (bufFinal, frames) => (bufFinal, frame.toList ++ frames)

/-- Modelled from the spec (section 3, SampleBuffer; section 4.4): the
claimed design resamples each incoming block *before* accumulation, so
the carried buffer holds post-resample samples at the target rate.
One push of that design: resample the block, then append it to the
buffer.  Compared against `micAssemblerPush`, which accumulates the
raw source-rate block. -/
def specResampleFirstPush (sampleBuffer : List JsNum) (block : List JsNum)
    (sourceRate targetRate : ℚ) : Except Err (List JsNum) :=
  match downsample block (some sourceRate) (some targetRate) with
  | .error e => .error e
  | .ok resampled => .ok (sampleBuffer ++ resampled)

/-! ### MicCapture state and lifecycle (Session.tsx)

State fields of the `MicCapture` class.  Resource handles
(`audioContext`, `mediaStream`, the three nodes) are modelled by their
presence; callbacks by whether one is installed. -/

structure MicState where
  audioContext : Bool
  mediaStream : Bool
  sourceNode : Bool
  analyserNode : Bool
  silentGain : Bool
  isCapturing : Bool
  sampleIntervalId : Option ℕ
  onLevelCallback : Bool
  onPcmFrameCallback : Bool
  targetSampleRate : ℚ
  sampleBuffer : List (List JsNum)
  samplesPerFrame : ℕ
  sourceSampleRate : ℚ
deriving DecidableEq, Repr

/-- Class-field initial values of `MicCapture` (the idle state). -/
def initialMicState : MicState where
  audioContext := false
  mediaStream := false
  sourceNode := false
  analyserNode := false
  silentGain := false
  isCapturing := false
  sampleIntervalId := none
  onLevelCallback := false
  onPcmFrameCallback := false
  targetSampleRate := 16000
  sampleBuffer := []
  samplesPerFrame := 0
  sourceSampleRate := 0

/-- External teardown actions performed by `cleanup`, in source order.
`disconnect` and `close` calls may throw in the browser; the source
catches (respectively `.catch`es) those errors, so each such effect
carries a flag recording whether the underlying call failed. -/
inductive Effect where
  | clearInterval (id : ℕ)
  | disconnectSilentGain (failed : Bool)
  | disconnectAnalyser (failed : Bool)
  | disconnectSource (failed : Bool)
  | stopTracks
  | closeContext (failed : Bool)
deriving DecidableEq, Repr

/-- Fault injection for teardown: which of the fallible external calls
throw when invoked. -/
structure Faults where
  silentGainFails : Bool
  analyserFails : Bool
  sourceFails : Bool
  closeFails : Bool
deriving DecidableEq, Repr

/-- Embedding of `MicCapture.cleanup`: cancels the sampling interval,
disconnects each node (ignoring errors), stops the media-stream
tracks, closes the context (errors only logged), clears the sample
buffer and the callbacks.  It does not touch `isCapturing` or the rate
fields.  Returns the new state and the effects performed. -/
def cleanup (s : MicState) (f : Faults) : MicState × List Effect :=
  let e1 := match s.sampleIntervalId with
    | some id => [Effect.clearInterval id]
    | none => []
  let e2 := if s.silentGain then [Effect.disconnectSilentGain f.silentGainFails] else []
  let e3 := if s.analyserNode then [Effect.disconnectAnalyser f.analyserFails] else []
  let e4 := if s.sourceNode then [Effect.disconnectSource f.sourceFails] else []
  let e5 := if s.mediaStream then [Effect.stopTracks] else []
  let e6 := if s.audioContext then [Effect.closeContext f.closeFails] else []
  ({ s with
      audioContext := false
      mediaStream := false
      sourceNode := false
      analyserNode := false
      silentGain := false
      sampleIntervalId := none
      sampleBuffer := []
      onLevelCallback := false
      onPcmFrameCallback := false },
   e1 ++ e2 ++ e3 ++ e4 ++ e5 ++ e6)

/-- Embedding of `MicCapture.stop`: sets `isCapturing := false`, then
runs `cleanup`.  Total — every fallible sub-call is caught inside
`cleanup`. -/
def stop (s : MicState) (f : Faults) : MicState × List Effect :=
  cleanup { s with isCapturing := false } f

/-- Observable callback invocations of one mic sampling tick. -/
inductive Event where
  | level (meanSq : ℚ)
  | pcmFrame (pcm : List ℤ)
deriving DecidableEq, Repr

/-- Embedding of one firing of the sampling interval
(`startSampling`'s callback plus `processAudioFrame`): guarded on
`isCapturing`, the analyser and the context; computes RMS (dropping
the block if invalid), emits a level event, pushes the block into the
assembler and, when a frame completes, downsamples it, encodes it and
emits it.  Any error in downsampling or encoding drops the frame
(after the buffer was already advanced).  The payload of a level event
is the mean square; the source passes its square root to the
callback, which does not affect which events fire. -/
def micTick (s : MicState) (dataArray : List JsNum) : MicState × List Event :=
  if !s.isCapturing ∨ !s.analyserNode ∨ !s.audioContext then (s, [])
  else
    match calculateRMSSq dataArray with
    | .error _ => (s, [])
    | .ok meanSq =>
      let levelEvents := if s.onLevelCallback then [Event.level meanSq] else []
      match micAssemblerPush s.samplesPerFrame s.sampleBuffer dataArray with
      | (buf, emitted) =>
        let s2 := { s with sampleBuffer := buf }
        match emitted with
        | none => (s2, levelEvents)
        | some frameSamples =>
          match downsample frameSamples (some s.sourceSampleRate) (some s.targetSampleRate) with
          | .error _ => (s2, levelEvents)
          | .ok downsampled =>
            if downsampled.length = 0 then (s2, levelEvents)
            else
              match floatToInt16 downsampled with
              | .error _ => (s2, levelEvents)
              | .ok pcm16 =>
                if pcm16.length = 0 then (s2, levelEvents)
                else
                  (s2, levelEvents ++
                    (if s.onPcmFrameCallback then [Event.pcmFrame pcm16] else []))

/-! ### Loopback capture (src/unnamed/part_000)

State of the `loopbackCapture` module object plus its module-level RMS
monitoring variables (`rmsInterval`, `lastPcmBuffer`), and the two
event sources that can invoke user-visible callbacks after start: the
`loopback-pcm-data` IPC handler and the RMS monitoring interval. -/

structure LoopState where
  isCapturing : Bool
  hiddenWindow : Bool
  pcmHandlerRegistered : Bool
  onPcmCallback : Bool
  rmsInterval : Option ℕ
  lastPcmBuffer : Option (List ℤ)
deriving DecidableEq, Repr

/-- Observable emissions of the loopback capture: a PCM frame handed
to the `onPcm` callback, or a `level` event emitted on the capture
object. -/
inductive LoopEvent where
  | pcm (frame : List ℤ)
  | level (meanSq : ℚ)
deriving DecidableEq, Repr

/-- Embedding of the loopback `calculateRMS` (src/unnamed/part_000) up
to the final square root and clamp: returns 0 on a null/empty buffer
(this variant does not throw), otherwise the mean square of the
`value / 32768` normalised samples. -/
def loopbackCalculateRMSSq (buffer : List ℤ) : ℚ :=
  if buffer.length = 0 then 0
  else (buffer.map (fun v => int16ToFloat v * int16ToFloat v)).sum / buffer.length

/-- Embedding of one delivery on the `loopback-pcm-data` channel: the
handler only runs while registered; it stores the buffer for RMS
monitoring and forwards it to the `onPcm` callback when
`loopbackCapture.isCapturing`. -/
def loopDeliver (s : LoopState) (pcmArray : List ℤ) : LoopState × List LoopEvent :=
  if s.pcmHandlerRegistered then
    if s.isCapturing then
      ({ s with lastPcmBuffer := some pcmArray },
        if s.onPcmCallback then [LoopEvent.pcm pcmArray] else [])
    else (s, [])
  else (s, [])

/-- Embedding of one firing of the RMS monitoring interval: only fires
while the interval exists; emits a level event when a buffer arrived
since the last tick and capture is active, then clears the stored
buffer.  The event payload is the mean square (the source emits its
clamped square root). -/
def loopRmsTick (s : LoopState) : LoopState × List LoopEvent :=
  match s.rmsInterval with
  | none => (s, [])
  | some _ =>
    match s.lastPcmBuffer with
    | none => (s, [])
    | some buf =>
      if s.isCapturing then
        ({ s with lastPcmBuffer := none }, [LoopEvent.level (loopbackCalculateRMSSq buf)])
      else (s, [])

/-- Embedding of `stopLoopback`: a no-op when not capturing; otherwise
destroys the hidden window, removes the IPC listener, stops RMS
monitoring (clearing the interval and the stored buffer) and clears
the capturing flag and callback. -/
def stopLoopback (s : LoopState) : LoopState :=
  if !s.isCapturing then s
  else
    { isCapturing := false
      hiddenWindow := false
      pcmHandlerRegistered := false
      onPcmCallback := false
      rmsInterval := none
      lastPcmBuffer := none }

/-! ### Heap model of buffer allocation in processAudioFrame

The claim that the delivered PCM frame is a fresh copy (the source's
`const pcmCopy = new Int16Array(pcm16)`) is about buffer identity, so
this refinement of the tick tracks allocations explicitly: a heap is a
store of buffers addressed by allocation order, every `new
Float32Array`/`new Int16Array`/`slice` of the source allocates, and
the assembler state holds references instead of values. -/

/-- A heap cell: a float buffer (`Float32Array`) or a PCM buffer
(`Int16Array`). -/
inductive Buf where
  | floats (xs : List JsNum)
  | ints (xs : List ℤ)
deriving DecidableEq, Repr

/-- A heap: buffers addressed by allocation index. -/
structure Heap where
  store : List Buf
deriving DecidableEq, Repr

/-- Next fresh reference. -/
def Heap.next (h : Heap) : ℕ := h.store.length

/-- Allocate a buffer, returning the new heap and the fresh reference. -/
def Heap.alloc (h : Heap) (b : Buf) : Heap × ℕ :=
  (⟨h.store ++ [b]⟩, h.store.length)

/-- Read a reference (out-of-range reads return an empty buffer; they
never occur in well-formed states). -/
def Heap.get (h : Heap) (r : ℕ) : Buf := h.store.getD r (Buf.floats [])

/-- Float contents at a reference. -/
def Heap.floatsAt (h : Heap) (r : ℕ) : List JsNum :=
  match h.get r with
  | .floats xs => xs
  | .ints _ => []

/-- Overwrite the buffer at a reference: the model of a consumer
mutating a delivered buffer in place. -/
def Heap.write (h : Heap) (r : ℕ) (b : Buf) : Heap := ⟨h.store.set r b⟩

/-- The `MicCapture` fields read by `processAudioFrame`, with the
sample buffer as heap references instead of values. -/
structure MicStateH where
  isCapturing : Bool
  analyserNode : Bool
  audioContext : Bool
  onLevelCallback : Bool
  onPcmFrameCallback : Bool
  samplesPerFrame : ℕ
  sourceSampleRate : ℚ
  targetSampleRate : ℚ
  sampleBuffer : List ℕ
deriving DecidableEq, Repr

/-- Values held by the assembler through the heap. -/
def stateFloats (h : Heap) (s : MicStateH) : List (List JsNum) :=
  s.sampleBuffer.map h.floatsAt

/-- Emission half of the heap-level tick, from the point where the
buffered block values have been read: mirrors the source from the
`totalSamples` computation on.  `concatenated`, the two `slice`
results, the `downsample` result, the `floatToInt16` result and
`pcmCopy` each allocate, in source order.  Returns the heap, the new
state and, when a frame is delivered to the callback, its value and
the reference actually handed over (`pcmCopy`). -/
def micTickHEmit (h : Heap) (s : MicStateH) (bufRefs : List ℕ)
    (blocks : List (List JsNum)) : Heap × MicStateH × Option (List ℤ × ℕ) :=
  let totalSamples := (blocks.map List.length).sum
  if s.samplesPerFrame ≤ totalSamples then
    let concatenated := blocks.flatten
    let h3 := (h.alloc (.floats concatenated)).1
    let frameSamples := concatenated.take s.samplesPerFrame
    let h4 := (h3.alloc (.floats frameSamples)).1
    let remaining := concatenated.drop s.samplesPerFrame
    let h5 := (h4.alloc (.floats remaining)).1
    let remainingRef := (h4.alloc (.floats remaining)).2
    let s2 := { s with sampleBuffer := if remaining.length = 0 then [] else [remainingRef] }
    match downsample frameSamples (some s.sourceSampleRate) (some s.targetSampleRate) with
    | .error _ => (h5, s2, none)
    | .ok downsampled =>
      let h6 := (h5.alloc (.floats downsampled)).1
      if downsampled.length = 0 then (h6, s2, none)
      else
        match floatToInt16 downsampled with
        | .error _ => (h6, s2, none)
        | .ok pcm16 =>
          let h7 := (h6.alloc (.ints pcm16)).1
          if pcm16.length = 0 then (h7, s2, none)
          else if s.onPcmFrameCallback then
            let h8 := (h7.alloc (.ints pcm16)).1
            let pcmCopyRef := (h7.alloc (.ints pcm16)).2
            (h8, s2, some (pcm16, pcmCopyRef))
          else (h7, s2, none)
  else (h, { s with sampleBuffer := bufRefs }, none)

/-- Heap-level tick: the same control flow as `micTick`, with the
allocations of the source made explicit (`dataArray` is the fresh
analysis buffer of the tick; `sampleBuffer.push(new
Float32Array(dataArray))` allocates the retained copy). -/
def micTickH (h : Heap) (s : MicStateH) (input : List JsNum) :
    Heap × MicStateH × Option (List ℤ × ℕ) :=
  if !s.isCapturing ∨ !s.analyserNode ∨ !s.audioContext then (h, s, none)
  else
    let h1 := (h.alloc (.floats input)).1
    match calculateRMSSq input with
    | .error _ => (h1, s, none)
    | .ok _ =>
      let h2 := (h1.alloc (.floats input)).1
      let copyRef := (h1.alloc (.floats input)).2
      let bufRefs := s.sampleBuffer ++ [copyRef]
      micTickHEmit h2 s bufRefs (bufRefs.map h2.floatsAt)

/-- Iterated heap-level ticks, collecting the values of the delivered
frames in order. -/
def micRunH (h : Heap) (s : MicStateH) : List (List JsNum) → Heap × MicStateH × List (List ℤ)
  | [] => (h, s, [])
  | input :: inputs =>
    match micTickH h s input with
    | (h1, s1, emitted) =>
      match micRunH h1 s1 inputs with
      | (h2, s2, frames) => (h2, s2, (emitted.map Prod.fst).toList ++ frames)

/-! ## Helper lemmas -/

theorem sumSquares_map_some (xs : List ℚ) :
    sumSquares (xs.map some) = .ok ((xs.map fun x => x * x).sum) := by
  induction xs with
  | nil => rfl
  | cons x xs ih => simp [sumSquares, ih]

theorem sumSquares_error_of_none (xs : List JsNum) (h : none ∈ xs) :
    sumSquares xs = .error .InvalidInput := by
  induction xs with
  | nil => cases h
  | cons x xs ih =>
    cases x with
    | none => rfl
    | some q =>
      have hx : none ∈ xs := by simpa using h
      simp [sumSquares, ih hx]

theorem sumSquaresGuard_ok (w : List JsNum) (h : ∀ x ∈ w, x ≠ none) :
    ∃ vs : List ℚ, windowAvg.sumSquaresGuard w = .ok vs := by
  induction w with
  | nil => exact ⟨[], rfl⟩
  | cons x xs ih =>
    cases x with
    | none => exact absurd rfl (h none (List.mem_cons_self none xs))
    | some q =>
      obtain ⟨vs, hvs⟩ := ih fun y hy => h y (List.mem_cons_of_mem _ hy)
      exact ⟨q :: vs, by simp [windowAvg.sumSquaresGuard, hvs]⟩

theorem windowAvg_ok (src : List JsNum) (h : ∀ x ∈ src, x ≠ none) (lo hi : ℕ) :
    ∃ q, windowAvg src lo hi = .ok q := by
  obtain ⟨vs, hvs⟩ := sumSquaresGuard_ok ((src.drop lo).take (hi - lo))
    fun x hx => h x (List.mem_of_mem_drop (List.mem_of_mem_take hx))
  simp only [windowAvg, hvs]
  split
  · exact ⟨0, rfl⟩
  · exact ⟨_, rfl⟩

theorem downsampleLoop_ok (src : List JsNum) (h : ∀ x ∈ src, x ≠ none) (ratio : ℚ) :
    ∀ count offsetResult : ℕ, ∃ vs : List ℚ,
      downsampleLoop src ratio count offsetResult = .ok vs ∧ vs.length = count := by
  intro count
  induction count with
  | zero => exact fun _ => ⟨[], rfl, rfl⟩
  | succ n ih =>
    intro off
    obtain ⟨q, hq⟩ := windowAvg_ok src h
      (jround ((off : ℚ) * ratio)).toNat (jround (((off : ℚ) + 1) * ratio)).toNat
    obtain ⟨vs, hvs, hlen⟩ := ih (off + 1)
    refine ⟨q :: vs, ?_, by simp [hlen]⟩
    simp [downsampleLoop, hq, hvs]

theorem floatToInt16Go_error_of_none (xs : List JsNum) (h : none ∈ xs) :
    floatToInt16Go xs = .error .InvalidInput := by
  induction xs with
  | nil => cases h
  | cons x xs ih =>
    cases x with
    | none => rfl
    | some q =>
      have hx : none ∈ xs := by simpa using h
      cases hv : floatToInt16One (some q) with
      | error e => cases e; simp [floatToInt16Go, hv]
      | ok v => simp [floatToInt16Go, hv, ih hx]

/-! ## Claims about the resampler and the validation contract -/

/-- C4: for every non-empty input block `x` and every finite positive
rate `r`, `resample(x, r, r)` is the identity: the equal-rate branch
of `downsample` returns the input unchanged (at the value level; the
source returns the very same buffer object, without copying). -/
theorem c4_identity (xs : List JsNum) (r : ℚ) (hne : xs ≠ []) (hr : 0 < r) :
    downsample xs (some r) (some r) = .ok xs := by
  have hlen : ¬ xs.length = 0 := by simpa using hne
  simp [downsample, hlen, hr.not_le]

/-- Witness for C4 at a concrete one-sample block and rate 48000. -/
theorem c4_identity_witness :
    downsample [some (1/2)] (some 48000) (some 48000) = .ok [some (1/2)] :=
  c4_identity [some (1/2)] 48000 (by simp) (by norm_num)

/-- C5 counterexample: the claim says the resampler fails with
`InvalidInput` on a non-finite (NaN/Infinity) sample, but the
equal-rate branch of `downsample` returns the buffer before any
per-sample validation, so a buffer containing a non-finite value is
returned unchanged, without error. -/
theorem c5_cex_equal_rate_skips_validation :
    downsample [some 1, none] (some 48000) (some 48000) = .ok [some 1, none] := by
  norm_num [downsample]

/-- C5 (amended): `calculateRMS` and `floatToInt16` fail with
`InvalidInput` on an empty sequence or any non-finite sample, and
`downsample` fails with `InvalidInput` on an empty sequence or a
non-finite or zero/negative rate — but `downsample` does not validate
samples when the two rates are equal (see the counterexample). -/
theorem c5_invalid_input_errors :
    (calculateRMSSq [] = .error .InvalidInput) ∧
    (∀ xs : List JsNum, none ∈ xs → calculateRMSSq xs = .error .InvalidInput) ∧
    (floatToInt16 [] = .error .InvalidInput) ∧
    (∀ xs : List JsNum, none ∈ xs → floatToInt16 xs = .error .InvalidInput) ∧
    (∀ sr tr : JsNum, downsample [] sr tr = .error .InvalidInput) ∧
    (∀ (xs : List JsNum) (tr : JsNum), downsample xs none tr = .error .InvalidInput) ∧
    (∀ (xs : List JsNum) (s : ℚ) (tr : JsNum), s ≤ 0 →
      downsample xs (some s) tr = .error .InvalidInput) ∧
    (∀ (xs : List JsNum) (s : ℚ), 0 < s → downsample xs (some s) none = .error .InvalidInput) ∧
    (∀ (xs : List JsNum) (s t : ℚ), 0 < s → t ≤ 0 →
      downsample xs (some s) (some t) = .error .InvalidInput) := by
  refine ⟨rfl, ?_, rfl, ?_, ?_, ?_, ?_, ?_, ?_⟩
  · intro xs h
    have hne : ¬ xs.length = 0 := by
      simp only [List.length_eq_zero]
      rintro rfl; cases h
    simp [calculateRMSSq, hne, sumSquares_error_of_none xs h]
  · intro xs h
    have hne : ¬ xs.length = 0 := by
      simp only [List.length_eq_zero]
      rintro rfl; cases h
    simp [floatToInt16, hne, floatToInt16Go_error_of_none xs h]
  · intro sr tr
    simp [downsample]
  · intro xs tr
    by_cases hxe : xs.length = 0 <;> simp [downsample, hxe]
  · intro xs s tr hs
    by_cases hxe : xs.length = 0 <;> simp [downsample, hxe, hs]
  · intro xs s hs
    by_cases hxe : xs.length = 0 <;> simp [downsample, hxe, hs.not_le]
  · intro xs s t hs ht
    by_cases hxe : xs.length = 0 <;> simp [downsample, hxe, hs.not_le, ht]

/-- Witness for C5 (amended) at concrete invalid inputs: a NaN sample
for the RMS meter and the codec, and a zero sample rate for the
resampler. -/
theorem c5_invalid_input_errors_witness :
    calculateRMSSq [some 1, none] = .error .InvalidInput ∧
    floatToInt16 [some 1, none] = .error .InvalidInput ∧
    downsample [some 1] (some 0) (some 16000) = .error .InvalidInput :=
  ⟨c5_invalid_input_errors.2.1 [some 1, none] (by simp),
   c5_invalid_input_errors.2.2.2.1 [some 1, none] (by simp),
   c5_invalid_input_errors.2.2.2.2.2.2.1 [some 1] 0 (some 16000) le_rfl⟩

/-- C3 counterexample: for the non-empty block of one sample at rates
48000 → 16000 (finite, positive, target ≤ source, unequal), the claim
says `downsample` returns a block of length
`round(len * target / source)` — but that rounds to 0 and the function
throws `InvalidInput` instead of returning a block. -/
theorem c3_cex_round_to_zero :
    downsample [some 1] (some 48000) (some 16000) = .error .InvalidInput ∧
    jround ((1 : ℚ) * 16000 / 48000) = 0 := by
  constructor
  · norm_num [downsample, jround]
  · norm_num [jround]

/-- C3 (amended): for every non-empty all-finite block and finite
positive rates with `target ≤ source` and `source ≠ target`,
*provided* the rounded output length is positive, `downsample` returns
a block of length `round(len(x) * targetRate / sourceRate)` (which
equals the source's `round(len(x) / (sourceRate / targetRate))`
exactly). -/
theorem c3_output_length (xs : List ℚ) (s t : ℚ) (hne : xs ≠ [])
    (ht : 0 < t) (hts : t ≤ s) (hst : s ≠ t)
    (hpos : 0 < jround ((xs.length : ℚ) * t / s)) :
    ∃ ys, downsample (xs.map some) (some s) (some t) = .ok ys ∧
      ys.length = (jround ((xs.length : ℚ) * t / s)).toNat := by
  have hs : 0 < s := ht.trans_le hts
  obtain ⟨vs, hvs, hvslen⟩ := downsampleLoop_ok (xs.map some) (by simp) (s / t)
    (jround (((xs.length : ℕ) : ℚ) / (s / t))).toNat 0
  have hpos2 : ¬ jround (((xs.length : ℕ) : ℚ) / (s / t)) ≤ 0 := by
    rw [div_div_eq_mul_div]; exact hpos.not_le
  refine ⟨vs.map some, ?_, ?_⟩
  · simp [downsample, hne, hs.not_le, ht.not_le, hst, hpos2, hvs]
  · rw [List.length_map, hvslen, div_div_eq_mul_div]

/-- Witness for C3 (amended): six samples at 48000 → 16000 give a
block of one third the length, two samples. -/
theorem c3_output_length_witness :
    ∃ ys, downsample ([(1:ℚ), 1, 1, 1, 1, 1].map some) (some 48000) (some 16000) = .ok ys ∧
      ys.length = (jround ((([(1:ℚ), 1, 1, 1, 1, 1].length : ℚ)) * 16000 / 48000)).toNat :=
  c3_output_length [1, 1, 1, 1, 1, 1] 48000 16000 (by simp) (by norm_num) (by norm_num)
    (by norm_num) (by norm_num [jround])

/-! ## RMS meter and PCM16 codec claims -/

theorem sum_const_of_all_eq (l : List ℚ) (c : ℚ) (h : ∀ x ∈ l, x = c) :
    l.sum = l.length * c := by
  induction l with
  | nil => simp
  | cons x xs ih =>
    rw [List.sum_cons, h x (List.mem_cons_self x xs),
      ih fun y hy => h y (List.mem_cons_of_mem _ hy)]
    simp only [List.length_cons]
    push_cast
    ring

/-- C6: for every non-empty all-finite block with samples in
`[-1, 1]`, `calculateRMS` returns `sqrt(mean(sample_i^2))` (the
embedding returns the mean square, the source takes its square root),
the result lies in `[0, 1]`, the RMS of an all-zero block is 0 and the
RMS of a block alternating +1/−1 is 1. -/
theorem c6_rms (xs : List ℚ) (hne : xs ≠ []) (hb : ∀ x ∈ xs, -1 ≤ x ∧ x ≤ 1) :
    calculateRMSSq (xs.map some) = .ok ((xs.map fun x => x * x).sum / xs.length) ∧
    0 ≤ Real.sqrt (((xs.map fun x => x * x).sum / xs.length : ℚ) : ℝ) ∧
    Real.sqrt (((xs.map fun x => x * x).sum / xs.length : ℚ) : ℝ) ≤ 1 ∧
    ((∀ x ∈ xs, x = 0) → Real.sqrt (((xs.map fun x => x * x).sum / xs.length : ℚ) : ℝ) = 0) ∧
    ((∀ x ∈ xs, x = 1 ∨ x = -1) →
      Real.sqrt (((xs.map fun x => x * x).sum / xs.length : ℚ) : ℝ) = 1) := by
  have hlenpos : 0 < xs.length := List.length_pos.mpr hne
  have hlenq : (0 : ℚ) < (xs.length : ℚ) := by exact_mod_cast hlenpos
  refine ⟨?_, Real.sqrt_nonneg _, ?_, ?_, ?_⟩
  · simp [calculateRMSSq, hne, sumSquares_map_some]
  · refine Real.sqrt_le_one.mpr ?_
    have hsum : (xs.map fun x => x * x).sum ≤ (xs.length : ℚ) := by
      calc (xs.map fun x => x * x).sum
          ≤ (xs.map fun x => x * x).length • (1 : ℚ) := by
            refine List.sum_le_card_nsmul _ 1 ?_
            intro y hy
            obtain ⟨x, hx, rfl⟩ := List.mem_map.mp hy
            nlinarith [(hb x hx).1, (hb x hx).2]
        _ = (xs.length : ℚ) := by rw [List.length_map, nsmul_eq_mul, mul_one]
    have : (xs.map fun x => x * x).sum / (xs.length : ℚ) ≤ 1 :=
      (div_le_one hlenq).mpr hsum
    exact_mod_cast this
  · intro h0
    have hsum : (xs.map fun x => x * x).sum = 0 := by
      refine List.sum_eq_zero ?_
      intro y hy
      obtain ⟨x, hx, rfl⟩ := List.mem_map.mp hy
      rw [h0 x hx, mul_zero]
    rw [hsum, zero_div]
    simp
  · intro h1
    have hsum : (xs.map fun x => x * x).sum = (xs.length : ℚ) := by
      have := sum_const_of_all_eq (xs.map fun x => x * x) 1 ?_
      · rw [this, List.length_map, mul_one]
      · intro y hy
        obtain ⟨x, hx, rfl⟩ := List.mem_map.mp hy
        rcases h1 x hx with h | h <;> rw [h] <;> norm_num
    rw [hsum, div_self (ne_of_gt hlenq)]
    simp

/-- Witness for C6 at the alternating +1/−1 block of length two: the
mean square is computed by the code and its square root is 1. -/
theorem c6_rms_witness :
    calculateRMSSq ([(1:ℚ), -1].map some) =
      .ok ((([(1:ℚ), -1]).map fun x => x * x).sum / ([(1:ℚ), -1]).length) ∧
    Real.sqrt ((((([(1:ℚ), -1]).map fun x => x * x).sum / ([(1:ℚ), -1]).length : ℚ)) : ℝ) = 1 := by
  have h := c6_rms [1, -1] (by simp) (by norm_num)
  exact ⟨h.1, h.2.2.2.2 (by norm_num)⟩

/-- C7: for every integer `v` in `[-32768, 32767]`, converting to
float by the inverse scale-down `int16ToFloat(v) = v / 32768` and back
through `floatToInt16` recovers `v` within ±1 (and raises no error). -/
theorem c7_roundtrip (v : ℤ) (h1 : -32768 ≤ v) (h2 : v ≤ 32767) :
    ∃ w : ℤ, floatToInt16One (some (int16ToFloat v)) = .ok w ∧
      v - 1 ≤ w ∧ w ≤ v + 1 := by
  have h1q : (-32768 : ℚ) ≤ (v : ℚ) := by exact_mod_cast h1
  have h2q : (v : ℚ) ≤ 32767 := by exact_mod_cast h2
  have hv : (32768 : ℚ) * ((v : ℚ) / 32768) = (v : ℚ) := by field_simp
  have hqlo : (-1 : ℚ) ≤ (v : ℚ) / 32768 := by linarith
  have hqhi : (v : ℚ) / 32768 ≤ 1 := by linarith
  have hclamp : max (-1 : ℚ) (min 1 ((v : ℚ) / 32768)) = (v : ℚ) / 32768 := by
    rw [min_eq_right hqhi, max_eq_right hqlo]
  have hrange1 : -32768 ≤ jround ((v : ℚ) / 32768 * 32767) := by
    rw [jround]
    refine Int.le_floor.mpr ?_
    push_cast
    linarith
  have hrange2 : jround ((v : ℚ) / 32768 * 32767) ≤ 32767 := by
    rw [jround]
    have h3 := Int.floor_lt.mpr
      (show (v : ℚ) / 32768 * 32767 + 1/2 < ((32768 : ℤ) : ℚ) by push_cast; linarith)
    omega
  refine ⟨jround ((v : ℚ) / 32768 * 32767), ?_, ?_, ?_⟩
  · simp only [floatToInt16One, int16ToFloat, hclamp]
    rw [if_neg]
    rw [not_or]
    exact ⟨not_lt.mpr hrange1, not_lt.mpr hrange2⟩
  · rw [jround]
    refine Int.le_floor.mpr ?_
    push_cast
    linarith
  · have h3 := Int.floor_lt.mpr
      (show (v : ℚ) / 32768 * 32767 + 1/2 < ((v + 2 : ℤ) : ℚ) by push_cast; linarith)
    rw [jround]
    omega

/-- Witness for C7 at `v = 12345`. -/
theorem c7_roundtrip_witness :
    ∃ w : ℤ, floatToInt16One (some (int16ToFloat 12345)) = .ok w ∧
      12345 - 1 ≤ w ∧ w ≤ 12345 + 1 :=
  c7_roundtrip 12345 (by norm_num) (by norm_num)

/-! ## Frame assembler claims -/

theorem micAssemblerPush_flatten (spf : ℕ) (buf : List (List JsNum)) (block : List JsNum) :
    ((micAssemblerPush spf buf block).2.toList).flatten ++
        (micAssemblerPush spf buf block).1.flatten = buf.flatten ++ block := by
  have hb : ∀ l : List JsNum,
      (if l.length = 0 then ([] : List (List JsNum)) else [l]).flatten = l := by
    intro l
    split
    · simp_all [List.length_eq_zero]
    · simp
  simp only [micAssemblerPush]
  split
  · simp only [Option.toList_some, List.flatten_cons, List.flatten_nil, List.append_nil, hb,
      List.take_append_drop]
    simp
  · simp

theorem micAssemblerPush_len (spf : ℕ) (buf : List (List JsNum)) (block : List JsNum)
    (hinv : buf.flatten.length < spf) (hsmall : block.length ≤ spf) :
    (micAssemblerPush spf buf block).1.flatten.length < spf ∧
    ∀ f, (micAssemblerPush spf buf block).2 = some f → f.length = spf := by
  have hb : ∀ l : List JsNum,
      (if l.length = 0 then ([] : List (List JsNum)) else [l]).flatten = l := by
    intro l
    split
    · simp_all [List.length_eq_zero]
    · simp
  have hacc : ((buf ++ [block]).map List.length).sum = buf.flatten.length + block.length := by
    rw [← List.length_flatten]
    simp
  simp only [micAssemblerPush]
  split
  · next htot =>
    rw [hacc] at htot
    constructor
    · rw [hb]
      simp only [List.length_drop, List.flatten_append, List.flatten_cons,
        List.flatten_nil, List.append_nil, List.length_append]
      omega
    · intro f hf
      simp only [Option.some.injEq] at hf
      rw [← hf, List.length_take]
      simp only [List.flatten_append, List.flatten_cons, List.flatten_nil, List.append_nil,
        List.length_append]
      omega
  · next htot =>
    rw [hacc] at htot
    refine ⟨?_, by simp⟩
    simp only [List.flatten_append, List.flatten_cons, List.flatten_nil, List.append_nil,
      List.length_append]
    omega

theorem micAssemblerRun_spec (spf : ℕ) :
    ∀ (blocks : List (List JsNum)) (buf : List (List JsNum)),
      (∀ b ∈ blocks, b.length ≤ spf) → buf.flatten.length < spf →
      (micAssemblerRun spf buf blocks).2.flatten ++ (micAssemblerRun spf buf blocks).1.flatten
          = buf.flatten ++ blocks.flatten ∧
      (∀ f ∈ (micAssemblerRun spf buf blocks).2, f.length = spf) ∧
      (micAssemblerRun spf buf blocks).1.flatten.length < spf := by
  intro blocks
  induction blocks with
  | nil =>
    intro buf _ hinv
    exact ⟨by simp [micAssemblerRun], by simp [micAssemblerRun],
      by simpa [micAssemblerRun] using hinv⟩
  | cons b bs ih =>
    intro buf hsmall hinv
    rcases hpush : micAssemblerPush spf buf b with ⟨buf1, frame⟩
    have hpf := micAssemblerPush_flatten spf buf b
    have hpl := micAssemblerPush_len spf buf b hinv (hsmall b (List.mem_cons_self b bs))
    rw [hpush] at hpf hpl
    rcases hrun2 : micAssemblerRun spf buf1 bs with ⟨buf2, frames⟩
    obtain ⟨ihorder, ihframes, ihres⟩ :=
      ih buf1 (fun x hx => hsmall x (List.mem_cons_of_mem _ hx)) hpl.1
    rw [hrun2] at ihorder ihframes ihres
    have hrunc : micAssemblerRun spf buf (b :: bs) = (buf2, frame.toList ++ frames) := by
      simp only [micAssemblerRun, hpush, hrun2]
    rw [hrunc]
    simp only at ihorder ihframes ihres hpf hpl ⊢
    refine ⟨?_, ?_, ihres⟩
    · simp only [List.flatten_append]
      rw [List.append_assoc, ihorder, ← List.append_assoc, hpf]
      simp
    · intro f hf
      rcases List.mem_append.mp hf with hf | hf
      · cases frame with
        | none => cases hf
        | some g =>
          rw [Option.toList_some, List.mem_singleton] at hf
          exact hpl.2 f (by rw [hf])
      · exact ihframes f hf

theorem flatten_length_of_all_len (spf : ℕ) (L : List (List JsNum))
    (h : ∀ f ∈ L, f.length = spf) : L.flatten.length = L.length * spf := by
  induction L with
  | nil => simp
  | cons f fs ih =>
    have hf := h f (List.mem_cons_self f fs)
    have ihh := ih fun g hg => h g (List.mem_cons_of_mem _ hg)
    simp only [List.flatten_cons, List.length_append, hf, ihh, List.length_cons]
    ring

/-- C1 counterexample: with `samplesPerFrame = 2`, a single push of 4
samples (total = 2 · samplesPerFrame + 0) emits only one frame and
keeps 2 samples buffered, because the source checks the buffer with
`if`, not `while`; the claim predicts two frames from the one call and
an empty residual. -/
theorem c1_cex_single_push_one_frame :
    (micAssemblerRun 2 [] [[some 0, some 0, some 0, some 0]]).2.length = 1 ∧
    (micAssemblerRun 2 [] [[some 0, some 0, some 0, some 0]]).1.flatten.length = 2 ∧
    ¬ ((micAssemblerRun 2 [] [[some 0, some 0, some 0, some 0]]).2.length = 2 ∧
       (micAssemblerRun 2 [] [[some 0, some 0, some 0, some 0]]).1.flatten.length = 0) := by
  decide

/-- C1 (amended): for any sequence of pushes *in which every pushed
block holds at most `samplesPerFrame` samples* (true of the source,
which pushes fixed analysis windows of 2048 < 4800), with total
`N * samplesPerFrame + R`, exactly `N` frames are emitted, each of
exactly `samplesPerFrame` samples, in original order with no drops or
duplicates, and the residual buffer holds `R` samples.  A single push
emits at most one frame, so a push carrying several frames' worth of
samples leaves the excess buffered (see the counterexample). -/
theorem c1_frame_assembler (spf : ℕ) (blocks : List (List JsNum)) (hspf : 0 < spf)
    (hsmall : ∀ b ∈ blocks, b.length ≤ spf) :
    (micAssemblerRun spf [] blocks).2.flatten ++ (micAssemblerRun spf [] blocks).1.flatten
        = blocks.flatten ∧
    (∀ f ∈ (micAssemblerRun spf [] blocks).2, f.length = spf) ∧
    (micAssemblerRun spf [] blocks).2.length = blocks.flatten.length / spf ∧
    (micAssemblerRun spf [] blocks).1.flatten.length = blocks.flatten.length % spf := by
  obtain ⟨horder, hframes, hres⟩ :=
    micAssemblerRun_spec spf blocks [] hsmall (by simpa using hspf)
  have hcount := flatten_length_of_all_len spf (micAssemblerRun spf [] blocks).2 hframes
  have htot : (micAssemblerRun spf [] blocks).2.length * spf +
      (micAssemblerRun spf [] blocks).1.flatten.length = blocks.flatten.length := by
    have hl := congrArg List.length horder
    simp only [List.length_append, hcount, List.flatten_nil, List.nil_append] at hl
    omega
  have hdm := (@Nat.div_mod_unique blocks.flatten.length spf
    (micAssemblerRun spf [] blocks).1.flatten.length
    (micAssemblerRun spf [] blocks).2.length hspf).mpr
    ⟨by rw [Nat.mul_comm]; omega, hres⟩
  exact ⟨by simpa using horder, hframes, hdm.1.symm, hdm.2.symm⟩

/-- Witness for C1 (amended): three pushes of one sample each with
`samplesPerFrame = 2` (total = 1 · 2 + 1) emit one frame of two
samples in order and keep one sample buffered. -/
theorem c1_frame_assembler_witness :
    (micAssemblerRun 2 [] [[some 1], [some 2], [some 3]]).2.flatten ++
        (micAssemblerRun 2 [] [[some 1], [some 2], [some 3]]).1.flatten
        = [[some 1], [some 2], [some 3]].flatten ∧
    (∀ f ∈ (micAssemblerRun 2 [] [[some 1], [some 2], [some 3]]).2, f.length = 2) ∧
    (micAssemblerRun 2 [] [[some 1], [some 2], [some 3]]).2.length
        = [[some 1], [some 2], [some 3]].flatten.length / 2 ∧
    (micAssemblerRun 2 [] [[some 1], [some 2], [some 3]]).1.flatten.length
        = [[some 1], [some 2], [some 3]].flatten.length % 2 :=
  c1_frame_assembler 2 [[some 1], [some 2], [some 3]] (by norm_num) (by decide)

/-- C2 counterexample: the claim says each incoming block is resampled
before accumulation, so the buffer would hold the block's resampled
image (at 48000 → 16000, one averaged sample); after one push of the
3-sample block `[0, 1, 2]` the code's buffer holds the 3 raw
source-rate samples instead. -/
theorem c2_cex_buffer_is_preresample :
    (micAssemblerPush 4800 [] [some 0, some 1, some 2]).1.flatten
        = [some 0, some 1, some 2] ∧
    specResampleFirstPush [] [some 0, some 1, some 2] 48000 16000 = .ok [some 1] ∧
    (micAssemblerPush 4800 [] [some 0, some 1, some 2]).1.flatten ≠ [some 1] := by
  refine ⟨by decide, ?_, by decide⟩
  norm_num [specResampleFirstPush, downsample, jround, windowAvg,
    windowAvg.sumSquaresGuard, downsampleLoop]

/-- C2 (amended): the assembler's buffer holds *pre-resample*
source-rate samples (a suffix of the raw pushed stream — the source
resamples per completed frame, after slicing), and its length stays
strictly below `samplesPerFrame` across pushes provided each pushed
block holds at most `samplesPerFrame` samples, as the source's fixed
2048-sample analysis window does against `samplesPerFrame = 4800`. -/
theorem c2_buffer_invariant (spf : ℕ) (buf : List (List JsNum)) (block : List JsNum)
    (hinv : buf.flatten.length < spf) (hsmall : block.length ≤ spf) :
    (micAssemblerPush spf buf block).1.flatten.length < spf ∧
    ∃ n, (micAssemblerPush spf buf block).1.flatten = (buf.flatten ++ block).drop n := by
  have h1 := micAssemblerPush_flatten spf buf block
  have h2 := micAssemblerPush_len spf buf block hinv hsmall
  refine ⟨h2.1, ?_⟩
  cases hp : (micAssemblerPush spf buf block).2 with
  | none =>
    refine ⟨0, ?_⟩
    rw [hp] at h1
    simpa using h1
  | some f =>
    refine ⟨spf, ?_⟩
    have hf := h2.2 f hp
    rw [hp] at h1
    simp only [Option.toList_some, List.flatten_cons, List.flatten_nil, List.append_nil] at h1
    rw [← h1, ← hf, List.drop_left]

/-- Witness for C2 (amended) after one push of two samples with
`samplesPerFrame = 3`: the buffer holds both raw samples (fewer than
3) and is a suffix (drop 0) of the raw stream. -/
theorem c2_buffer_invariant_witness :
    (micAssemblerPush 3 [] [some 1, some 2]).1.flatten.length < 3 ∧
    ∃ n, (micAssemblerPush 3 [] [some 1, some 2]).1.flatten
        = (([] : List (List JsNum)).flatten ++ [some 1, some 2]).drop n :=
  c2_buffer_invariant 3 [] [some 1, some 2] (by decide) (by decide)

/-! ## Lifecycle claims -/

/-- C8: `stop()` is idempotent and never throws: from any state
(idle, capturing, mid-start, or already stopped) it cancels the poll
timer, disconnects each node of the processing graph, stops the
hardware stream and releases the audio context, always reaching the
same stopped state whatever external teardown calls fail (the fault
flags `f` never change the resulting state — errors are swallowed);
a second `stop` and a `stop` on the idle state are no-ops performing
no external actions. -/
theorem c8_stop_idempotent_total (s : MicState) (f : Faults) :
    (stop s f).1 = { initialMicState with
      targetSampleRate := s.targetSampleRate
      samplesPerFrame := s.samplesPerFrame
      sourceSampleRate := s.sourceSampleRate } ∧
    (∀ f2, stop ((stop s f).1) f2 = ((stop s f).1, [])) ∧
    (∀ f2, stop initialMicState f2 = (initialMicState, [])) ∧
    (∀ id, s.sampleIntervalId = some id → Effect.clearInterval id ∈ (stop s f).2) ∧
    (s.silentGain = true → Effect.disconnectSilentGain f.silentGainFails ∈ (stop s f).2) ∧
    (s.analyserNode = true → Effect.disconnectAnalyser f.analyserFails ∈ (stop s f).2) ∧
    (s.sourceNode = true → Effect.disconnectSource f.sourceFails ∈ (stop s f).2) ∧
    (s.mediaStream = true → Effect.stopTracks ∈ (stop s f).2) ∧
    (s.audioContext = true → Effect.closeContext f.closeFails ∈ (stop s f).2) := by
  refine ⟨?_, ?_, ?_, ?_, ?_, ?_, ?_, ?_, ?_⟩
  · simp [stop, cleanup, initialMicState]
  · intro f2
    simp [stop, cleanup, initialMicState]
  · intro f2
    simp [stop, cleanup, initialMicState]
  · intro id hid
    simp [stop, cleanup, hid]
  · intro h
    simp [stop, cleanup, h]
  · intro h
    simp [stop, cleanup, h]
  · intro h
    simp [stop, cleanup, h]
  · intro h
    simp [stop, cleanup, h]
  · intro h
    simp [stop, cleanup, h]

/-- Witness for C8: `stop` on the idle state is a no-op with no
external actions even when every fallible teardown call would fail,
and `stop` from a state holding the poll timer cancels it. -/
theorem c8_stop_witness :
    stop initialMicState ⟨true, true, true, true⟩ = (initialMicState, []) ∧
    Effect.clearInterval 7 ∈ (stop { initialMicState with
      isCapturing := true
      sampleIntervalId := some 7 } ⟨true, true, true, true⟩).2 :=
  ⟨(c8_stop_idempotent_total initialMicState ⟨true, true, true, true⟩).2.2.1
      ⟨true, true, true, true⟩,
   (c8_stop_idempotent_total { initialMicState with
      isCapturing := true
      sampleIntervalId := some 7 } ⟨true, true, true, true⟩).2.2.2.1 7 rfl⟩

/-- C9: after `stop()` returns, neither `onPcmFrame` nor `onLevel` is
invoked again: the mic variant's poll timer is cancelled and its
callback references cleared, so a tick on the post-stop state emits no
events and changes nothing; the loopback variant's PCM channel
delivery and RMS monitoring tick likewise emit nothing after
`stopLoopback`, which (when capture was active) removes the message
listener and clears the level timer. -/
theorem c9_no_events_after_stop (s : MicState) (f : Faults) (ls : LoopState) :
    (stop s f).1.sampleIntervalId = none ∧
    (stop s f).1.onLevelCallback = false ∧
    (stop s f).1.onPcmFrameCallback = false ∧
    (∀ input, micTick (stop s f).1 input = ((stop s f).1, [])) ∧
    (∀ pcm, loopDeliver (stopLoopback ls) pcm = (stopLoopback ls, [])) ∧
    loopRmsTick (stopLoopback ls) = (stopLoopback ls, []) ∧
    (ls.isCapturing = true →
      (stopLoopback ls).pcmHandlerRegistered = false ∧
      (stopLoopback ls).rmsInterval = none) := by
  have hstop : (stopLoopback ls).isCapturing = false := by
    unfold stopLoopback
    split
    · next h => simpa using h
    · rfl
  refine ⟨?_, ?_, ?_, ?_, ?_, ?_, ?_⟩
  · simp [stop, cleanup]
  · simp [stop, cleanup]
  · simp [stop, cleanup]
  · intro input
    simp [micTick, stop, cleanup]
  · intro pcm
    simp [loopDeliver, hstop]
  · rcases h1 : (stopLoopback ls).rmsInterval with _ | k <;>
      rcases h2 : (stopLoopback ls).lastPcmBuffer with _ | buf <;>
      simp [loopRmsTick, h1, h2, hstop]
  · intro hc
    simp [stopLoopback, hc]

/-- Witness for C9: a concrete post-stop tick emits nothing, a
concrete post-stop channel delivery emits nothing, and stopping an
active loopback capture deregisters the message listener. -/
theorem c9_no_events_after_stop_witness :
    micTick (stop initialMicState ⟨false, false, false, false⟩).1 [some 1]
      = ((stop initialMicState ⟨false, false, false, false⟩).1, []) ∧
    loopDeliver (stopLoopback ⟨true, true, true, true, some 3, some [5]⟩) [7]
      = (stopLoopback ⟨true, true, true, true, some 3, some [5]⟩, []) ∧
    (stopLoopback ⟨true, true, true, true, some 3, some [5]⟩).pcmHandlerRegistered = false :=
  ⟨(c9_no_events_after_stop initialMicState ⟨false, false, false, false⟩
      ⟨true, true, true, true, some 3, some [5]⟩).2.2.2.1 [some 1],
   (c9_no_events_after_stop initialMicState ⟨false, false, false, false⟩
      ⟨true, true, true, true, some 3, some [5]⟩).2.2.2.2.1 [7],
   ((c9_no_events_after_stop initialMicState ⟨false, false, false, false⟩
      ⟨true, true, true, true, some 3, some [5]⟩).2.2.2.2.2.2 rfl).1⟩

/-! ## Heap lemmas for the buffer-identity claim -/

theorem Heap.next_alloc (h : Heap) (b : Buf) : (h.alloc b).1.next = h.next + 1 := by
  simp [Heap.alloc, Heap.next]

theorem Heap.alloc_ref (h : Heap) (b : Buf) : (h.alloc b).2 = h.next := rfl

theorem Heap.next_write (h : Heap) (r : ℕ) (b : Buf) : (h.write r b).next = h.next := by
  simp [Heap.write, Heap.next]

theorem Heap.get_alloc_ne (h : Heap) (b : Buf) (r : ℕ) (hr : r ≠ h.next) :
    (h.alloc b).1.get r = h.get r := by
  simp only [Heap.next] at hr
  simp only [Heap.alloc, Heap.get, List.getD_eq_getElem?_getD]
  rw [List.getElem?_append]
  split
  · rfl
  · next hge =>
    rw [List.getElem?_eq_none (l := [b]) (by simp; omega),
      List.getElem?_eq_none (l := h.store) (by omega)]

theorem Heap.get_alloc_self (h : Heap) (b : Buf) :
    (h.alloc b).1.get h.next = b := by
  simp only [Heap.alloc, Heap.get, Heap.next, List.getD_eq_getElem?_getD,
    List.getElem?_concat_length, Option.getD_some]

theorem Heap.get_write_ne (h : Heap) (r q : ℕ) (b : Buf) (hq : q ≠ r) :
    (h.write r b).get q = h.get q := by
  simp only [Heap.write, Heap.get, List.getD_eq_getElem?_getD]
  rw [List.getElem?_set_ne (by omega)]

theorem Heap.floatsAt_alloc_ne (h : Heap) (b : Buf) (r : ℕ) (hr : r ≠ h.next) :
    (h.alloc b).1.floatsAt r = h.floatsAt r := by
  simp only [Heap.floatsAt, Heap.get_alloc_ne h b r hr]

theorem Heap.floatsAt_write_ne (h : Heap) (r q : ℕ) (b : Buf) (hq : q ≠ r) :
    (h.write r b).floatsAt q = h.floatsAt q := by
  simp only [Heap.floatsAt, Heap.get_write_ne h r q b hq]

theorem Heap.alloc_write (h : Heap) (r : ℕ) (w b : Buf) (hr : r < h.next) :
    (h.write r w).alloc b = ((h.alloc b).1.write r w, (h.alloc b).2) := by
  simp only [Heap.next] at hr
  simp only [Heap.write, Heap.alloc, List.set_append, List.length_set, hr, if_pos]

theorem set_append_left_of_lt {α : Type} (l l' : List α) (r : ℕ) (a : α)
    (hr : r < l.length) : (l ++ l').set r a = l.set r a ++ l' := by
  rw [List.set_append, if_pos hr]

theorem micTickHEmit_write (h : Heap) (s : MicStateH) (bufRefs : List ℕ)
    (blocks : List (List JsNum)) (r : ℕ) (w : Buf) (hr : r < h.next) :
    micTickHEmit (h.write r w) s bufRefs blocks
      = ((micTickHEmit h s bufRefs blocks).1.write r w,
         (micTickHEmit h s bufRefs blocks).2.1,
         (micTickHEmit h s bufRefs blocks).2.2) := by
  have hr2 : r < h.store.length := hr
  simp only [micTickHEmit]
  split
  · rcases hds : downsample (List.take s.samplesPerFrame blocks.flatten)
        (some s.sourceSampleRate) (some s.targetSampleRate) with e | ds
    · simp only []
      simp [Heap.alloc, Heap.write, List.length_set]
      rw [set_append_left_of_lt _ _ _ _ hr2]
    · simp only []
      split
      · simp [Heap.alloc, Heap.write, List.length_set]
        rw [set_append_left_of_lt _ _ _ _ hr2]
      · rcases hf : floatToInt16 ds with e | pcm16
        · simp only []
          simp [Heap.alloc, Heap.write, List.length_set]
          rw [set_append_left_of_lt _ _ _ _ hr2]
        · simp only []
          split
          · simp [Heap.alloc, Heap.write, List.length_set]
            rw [set_append_left_of_lt _ _ _ _ hr2]
          · split
            · simp [Heap.alloc, Heap.write, List.length_set]
              rw [set_append_left_of_lt _ _ _ _ hr2]
            · simp [Heap.alloc, Heap.write, List.length_set]
              rw [set_append_left_of_lt _ _ _ _ hr2]
  · simp [Heap.write]

theorem micTickH_write (h : Heap) (s : MicStateH) (input : List JsNum) (r : ℕ) (w : Buf)
    (hr : r < h.next) (hnr : ∀ q ∈ s.sampleBuffer, q ≠ r) :
    micTickH (h.write r w) s input
      = ((micTickH h s input).1.write r w,
         (micTickH h s input).2.1,
         (micTickH h s input).2.2) := by
  simp only [micTickH]
  split
  · rfl
  · rcases hrms : calculateRMSSq input with e | m
    · simp only []
      rw [Heap.alloc_write _ _ _ _ hr]
    · simp only []
      have e1 := Heap.alloc_write h r w (Buf.floats input) hr
      have hr1 : r < (h.alloc (Buf.floats input)).1.next := by
        rw [Heap.next_alloc]
        omega
      have e2 := Heap.alloc_write (h.alloc (Buf.floats input)).1 r w (Buf.floats input) hr1
      have hr2 : r < ((h.alloc (Buf.floats input)).1.alloc (Buf.floats input)).1.next := by
        rw [Heap.next_alloc]
        omega
      simp only [e1, e2]
      have hmap : (s.sampleBuffer ++ [((h.alloc (Buf.floats input)).1.alloc
              (Buf.floats input)).2]).map
            ((((h.alloc (Buf.floats input)).1.alloc (Buf.floats input)).1.write r w).floatsAt)
          = (s.sampleBuffer ++ [((h.alloc (Buf.floats input)).1.alloc
              (Buf.floats input)).2]).map
            (((h.alloc (Buf.floats input)).1.alloc (Buf.floats input)).1.floatsAt) := by
        refine List.map_congr_left ?_
        intro q hq
        rcases List.mem_append.mp hq with hq | hq
        · exact Heap.floatsAt_write_ne _ r q w (hnr q hq)
        · rw [List.mem_singleton] at hq
          subst hq
          refine Heap.floatsAt_write_ne _ r _ w ?_
          rw [Heap.alloc_ref, Heap.next_alloc]
          omega
      rw [hmap]
      exact micTickHEmit_write _ s _ _ r w hr2

theorem micTickHEmit_refs (h : Heap) (s : MicStateH) (bufRefs : List ℕ)
    (blocks : List (List JsNum)) :
    h.next ≤ (micTickHEmit h s bufRefs blocks).1.next ∧
    (∀ q ∈ (micTickHEmit h s bufRefs blocks).2.1.sampleBuffer,
        q ∈ bufRefs ∨ (h.next ≤ q ∧ q < (micTickHEmit h s bufRefs blocks).1.next)) ∧
    (∀ v r, (micTickHEmit h s bufRefs blocks).2.2 = some (v, r) →
        h.next ≤ r ∧ r < (micTickHEmit h s bufRefs blocks).1.next ∧
        (micTickHEmit h s bufRefs blocks).1.get r = Buf.ints v ∧
        ∀ q ∈ (micTickHEmit h s bufRefs blocks).2.1.sampleBuffer, q < r) := by
  simp only [micTickHEmit]
  split
  · rcases hds : downsample (List.take s.samplesPerFrame blocks.flatten)
        (some s.sourceSampleRate) (some s.targetSampleRate) with e | ds
    · simp only []
      refine ⟨by simp only [Heap.next_alloc]; omega, ?_, fun v r hvr => by cases hvr⟩
      intro q hq
      split at hq
      · cases hq
      · rw [List.mem_singleton] at hq
        subst hq
        right
        simp only [Heap.alloc_ref, Heap.next_alloc]
        omega
    · simp only []
      split
      · refine ⟨by simp only [Heap.next_alloc]; omega, ?_, fun v r hvr => by cases hvr⟩
        intro q hq
        split at hq
        · cases hq
        · rw [List.mem_singleton] at hq
          subst hq
          right
          simp only [Heap.alloc_ref, Heap.next_alloc]
          omega
      · rcases hf : floatToInt16 ds with e | pcm16
        · simp only []
          refine ⟨by simp only [Heap.next_alloc]; omega, ?_, fun v r hvr => by cases hvr⟩
          intro q hq
          split at hq
          · cases hq
          · rw [List.mem_singleton] at hq
            subst hq
            right
            simp only [Heap.alloc_ref, Heap.next_alloc]
            omega
        · simp only []
          split
          · refine ⟨by simp only [Heap.next_alloc]; omega, ?_, fun v r hvr => by cases hvr⟩
            intro q hq
            split at hq
            · cases hq
            · rw [List.mem_singleton] at hq
              subst hq
              right
              simp only [Heap.alloc_ref, Heap.next_alloc]
              omega
          · split
            · refine ⟨by simp only [Heap.next_alloc]; omega, ?_, ?_⟩
              · intro q hq
                split at hq
                · cases hq
                · rw [List.mem_singleton] at hq
                  subst hq
                  right
                  simp only [Heap.alloc_ref, Heap.next_alloc]
                  omega
              · intro v r hvr
                rw [Option.some.injEq, Prod.mk.injEq] at hvr
                obtain ⟨hv, hrr⟩ := hvr
                subst hv
                subst hrr
                refine ⟨?_, ?_, ?_, ?_⟩
                · simp only [Heap.alloc_ref, Heap.next_alloc]
                  omega
                · simp only [Heap.alloc_ref, Heap.next_alloc]
                  omega
                · simp only []
                  rw [Heap.alloc_ref, Heap.get_alloc_self]
                · intro q hq
                  split at hq
                  · cases hq
                  · rw [List.mem_singleton] at hq
                    subst hq
                    simp only [Heap.alloc_ref, Heap.next_alloc]
                    omega
            · refine ⟨by simp only [Heap.next_alloc]; omega, ?_, fun v r hvr => by cases hvr⟩
              intro q hq
              split at hq
              · cases hq
              · rw [List.mem_singleton] at hq
                subst hq
                right
                simp only [Heap.alloc_ref, Heap.next_alloc]
                omega
  · exact ⟨le_rfl, fun q hq => Or.inl hq, fun v r hvr => by cases hvr⟩

theorem micTickH_refs (h : Heap) (s : MicStateH) (input : List JsNum) :
    h.next ≤ (micTickH h s input).1.next ∧
    (∀ q ∈ (micTickH h s input).2.1.sampleBuffer,
        q ∈ s.sampleBuffer ∨ (h.next ≤ q ∧ q < (micTickH h s input).1.next)) ∧
    (∀ v r, (micTickH h s input).2.2 = some (v, r) →
        h.next ≤ r ∧ r < (micTickH h s input).1.next ∧
        (micTickH h s input).1.get r = Buf.ints v ∧
        ∀ q ∈ (micTickH h s input).2.1.sampleBuffer, q < r) := by
  simp only [micTickH]
  split
  · exact ⟨le_rfl, fun q hq => Or.inl hq, fun v r hvr => by cases hvr⟩
  · rcases hrms : calculateRMSSq input with e | m
    · simp only []
      exact ⟨by rw [Heap.next_alloc]; omega, fun q hq => Or.inl hq,
        fun v r hvr => by cases hvr⟩
    · simp only []
      have hem := micTickHEmit_refs ((h.alloc (Buf.floats input)).1.alloc (Buf.floats input)).1
        s (s.sampleBuffer ++ [((h.alloc (Buf.floats input)).1.alloc (Buf.floats input)).2])
        ((s.sampleBuffer ++ [((h.alloc (Buf.floats input)).1.alloc (Buf.floats input)).2]).map
          (((h.alloc (Buf.floats input)).1.alloc (Buf.floats input)).1.floatsAt))
      have hn2 : ((h.alloc (Buf.floats input)).1.alloc (Buf.floats input)).1.next
          = h.next + 2 := by
        rw [Heap.next_alloc, Heap.next_alloc]
      refine ⟨le_trans (by omega) (hn2 ▸ hem.1), ?_, ?_⟩
      · intro q hq
        rcases hem.2.1 q hq with hmem | ⟨hge, hlt⟩
        · rcases List.mem_append.mp hmem with hmem | hmem
          · exact Or.inl hmem
          · rw [List.mem_singleton] at hmem
            subst hmem
            right
            refine ⟨?_, ?_⟩
            · rw [Heap.alloc_ref, Heap.next_alloc]
              omega
            · calc ((h.alloc (Buf.floats input)).1.alloc (Buf.floats input)).2
                  < ((h.alloc (Buf.floats input)).1.alloc (Buf.floats input)).1.next := by
                    rw [Heap.alloc_ref, Heap.next_alloc]
                    omega
                _ ≤ _ := hem.1
        · exact Or.inr ⟨by omega, hlt⟩
      · intro v r hvr
        obtain ⟨hge, hlt, hget, hqs⟩ := hem.2.2 v r hvr
        exact ⟨by omega, hlt, hget, hqs⟩

theorem micRunH_write (inputs : List (List JsNum)) :
    ∀ (h : Heap) (s : MicStateH) (r : ℕ) (w : Buf),
      r < h.next → (∀ q ∈ s.sampleBuffer, q ≠ r) →
      micRunH (h.write r w) s inputs
        = ((micRunH h s inputs).1.write r w,
           (micRunH h s inputs).2.1,
           (micRunH h s inputs).2.2) := by
  induction inputs with
  | nil =>
    intro h s r w _ _
    simp [micRunH]
  | cons input inputs ih =>
    intro h s r w hr hnr
    rcases ht : micTickH h s input with ⟨H1, s1, em⟩
    have hw := micTickH_write h s input r w hr hnr
    have hrefs := micTickH_refs h s input
    rw [ht] at hw hrefs
    simp only at hw hrefs
    have hr1 : r < H1.next := lt_of_lt_of_le hr hrefs.1
    have hnr1 : ∀ q ∈ s1.sampleBuffer, q ≠ r := by
      intro q hq
      rcases hrefs.2.1 q hq with hold | ⟨hge, _⟩
      · exact hnr q hold
      · omega
    have ihh := ih H1 s1 r w hr1 hnr1
    simp only [micRunH, hw, ht, ihh]

/-- C10: the Int16Array handed to `onPcmFrame` is a freshly allocated
copy (`pcmCopy`) of the encoded frame, distinct from every buffer the
pipeline retains: the delivered reference is fresh, holds the encoded
frame value, is not among the assembler's retained references, and
overwriting it with any buffer changes neither the assembler's state
values nor the contents of any later delivered frame over any sequence
of subsequent ticks. -/
theorem c10_delivered_frame_is_fresh_copy (h : Heap) (s : MicStateH) (input : List JsNum)
    (v : List ℤ) (r : ℕ)
    (hemit : (micTickH h s input).2.2 = some (v, r)) :
    h.next ≤ r ∧
    (micTickH h s input).1.get r = Buf.ints v ∧
    (∀ q ∈ (micTickH h s input).2.1.sampleBuffer, q ≠ r) ∧
    (∀ (w : Buf) (inputs : List (List JsNum)),
      micRunH ((micTickH h s input).1.write r w) (micTickH h s input).2.1 inputs
        = ((micRunH (micTickH h s input).1 (micTickH h s input).2.1 inputs).1.write r w,
           (micRunH (micTickH h s input).1 (micTickH h s input).2.1 inputs).2.1,
           (micRunH (micTickH h s input).1 (micTickH h s input).2.1 inputs).2.2)) := by
  have hrefs := micTickH_refs h s input
  obtain ⟨hfresh, hlt, hget, hqs⟩ := hrefs.2.2 v r hemit
  refine ⟨hfresh, hget, fun q hq => Nat.ne_of_lt (hqs q hq), ?_⟩
  intro w inputs
  exact micRunH_write inputs (micTickH h s input).1 (micTickH h s input).2.1 r w hlt
    (fun q hq => Nat.ne_of_lt (hqs q hq))

/-- Witness for C10 at a concrete capturing state (one sample per
frame, equal rates): the tick delivers frame reference 7 holding
`[32767]`, fresh for the empty heap, and overwriting it leaves a
subsequent tick's results unchanged. -/
theorem c10_delivered_frame_witness :
    (⟨[]⟩ : Heap).next ≤ 7 ∧
    (micTickH ⟨[]⟩ ⟨true, true, true, false, true, 1, 48000, 48000, []⟩ [some 1]).1.get 7
      = Buf.ints [32767] ∧
    micRunH ((micTickH ⟨[]⟩ ⟨true, true, true, false, true, 1, 48000, 48000, []⟩
          [some 1]).1.write 7 (Buf.ints [9]))
        (micTickH ⟨[]⟩ ⟨true, true, true, false, true, 1, 48000, 48000, []⟩ [some 1]).2.1
        [[some 0]]
      = ((micRunH (micTickH ⟨[]⟩ ⟨true, true, true, false, true, 1, 48000, 48000, []⟩
            [some 1]).1
          (micTickH ⟨[]⟩ ⟨true, true, true, false, true, 1, 48000, 48000, []⟩ [some 1]).2.1
          [[some 0]]).1.write 7 (Buf.ints [9]),
         (micRunH (micTickH ⟨[]⟩ ⟨true, true, true, false, true, 1, 48000, 48000, []⟩
            [some 1]).1
          (micTickH ⟨[]⟩ ⟨true, true, true, false, true, 1, 48000, 48000, []⟩ [some 1]).2.1
          [[some 0]]).2.1,
         (micRunH (micTickH ⟨[]⟩ ⟨true, true, true, false, true, 1, 48000, 48000, []⟩
            [some 1]).1
          (micTickH ⟨[]⟩ ⟨true, true, true, false, true, 1, 48000, 48000, []⟩ [some 1]).2.1
          [[some 0]]).2.2) := by
  have h := c10_delivered_frame_is_fresh_copy ⟨[]⟩
    ⟨true, true, true, false, true, 1, 48000, 48000, []⟩ [some 1] [32767] 7
    (by norm_num [micTickH, micTickHEmit, calculateRMSSq, sumSquares, downsample,
      floatToInt16, floatToInt16Go, floatToInt16One, jround, int16ToFloat, Heap.alloc,
      Heap.floatsAt, Heap.get, Heap.next])
  exact ⟨h.1, h.2.1, h.2.2.2 (Buf.ints [9]) [[some 0]]⟩

end SpeechAnalyzer
